import Mathlib

/-!
Verification of the tic-tac-toe AI move evaluator and player policy.

This file gives a shallow embedding, in Lean, of the data model and
operations of the tic-tac-toe program (`gameboard.rs`, `game_outcome.rs`,
`lib.rs`, `ai.rs`) and proves the specified properties about them.

Modelling conventions:
* `f64` score and difficulty values are modelled as exact rationals (`ℚ`);
  the constants involved (`0.0`, `0.5`, `1.0`, `-1.0`) are exactly
  representable and the claims under study are stated at the level of exact
  arithmetic.  The `is_nan` test of `set_difficulty` is vacuous in this
  model since `ℚ` has no NaN value.
* Rust panics and `unwrap` failures are modelled with `Option` (`none` =
  panic).
* The process-wide random draw `rng.gen_range(0.0..1.0)` is modelled as an
  explicit parameter `r : ℚ` of `AiPlayer.do_turn`.
* `Vec::sort_by` is a stable sort; it is modelled by `List.mergeSort`,
  which is also stable.  The comparator in the source uses
  `partial_cmp` and maps an unordered pair to `Equal`; on rationals the
  order is total, so the `None` arm is unreachable and the comparator is
  exactly `win_score ≤ win_score`.
-/

/-- state of a single space on the game board (`gameboard.rs`, `BoardSpace`). -/
inductive BoardSpace where
  | Empty
  | X
  | O
deriving DecidableEq, Repr

/-- the nine space locations on a game board
(`gameboard.rs`, `BoardSpaceLocation`). -/
inductive BoardSpaceLocation where
  | TopLeft
  | TopMiddle
  | TopRight
  | MiddleLeft
  | MiddleMiddle
  | MiddleRight
  | BottomLeft
  | BottomMiddle
  | BottomRight
deriving DecidableEq, Repr, Fintype

/-- the list returned by `BoardSpaceLocation::all`, in its enumeration
order. -/
def BoardSpaceLocation.all : List BoardSpaceLocation :=
  [BoardSpaceLocation.TopLeft,
   BoardSpaceLocation.TopMiddle,
   BoardSpaceLocation.TopRight,
   BoardSpaceLocation.MiddleLeft,
   BoardSpaceLocation.MiddleMiddle,
   BoardSpaceLocation.MiddleRight,
   BoardSpaceLocation.BottomLeft,
   BoardSpaceLocation.BottomMiddle,
   BoardSpaceLocation.BottomRight]

/-- a tic-tac-toe game board (`gameboard.rs`, `GameBoard`): a 3×3 grid of
`BoardSpace`, represented by its (total) space lookup
`location ↦ space`, i.e. the composition of `GameBoard::space` with the
backing `board_state` array.  All accesses in the AI code go through
`space`/`space_mut` at a `BoardSpaceLocation`, so this representation is
faithful for the code under study. -/
structure GameBoard where
  space : BoardSpaceLocation → BoardSpace

/-- writing a mark through `*board.space_mut(loc) = s` on a (cloned) board:
the board that agrees with `board` everywhere except at `loc`, which now
holds `s`. -/
def GameBoard.set (board : GameBoard) (loc : BoardSpaceLocation) (s : BoardSpace) :
    GameBoard :=
  { space := fun l => if l = loc then s else board.space l }

/-- the Empty locations of a board, in enumeration order.  This models the
loop `for location in BoardSpaceLocation::all() { if board.space(location)
== &BoardSpace::Empty { ... } }` used both in `AiPlayer::do_turn` and in
`PossibleMove::new`. -/
def GameBoard.empties (board : GameBoard) : List BoardSpaceLocation :=
  BoardSpaceLocation.all.filter fun location => board.space location = BoardSpace.Empty

/-- the row, column or diagonal a game can be won with
(`game_outcome.rs`, `WinPosition`). -/
inductive WinPosition where
  | TopRow
  | MiddleRow
  | BottomRow
  | LeftColumn
  | MiddleColumn
  | RightColumn
  | TopLeftToBottomRight
  | BottomLeftToTopRight
deriving DecidableEq, Repr

/-- the three board locations of a win position
(`win_position_constants.rs` together with `WinPosition::as_board_spaces`). -/
def WinPosition.as_board_spaces :
    WinPosition → BoardSpaceLocation × BoardSpaceLocation × BoardSpaceLocation
  | WinPosition.TopRow =>
      (BoardSpaceLocation.TopLeft, BoardSpaceLocation.TopMiddle, BoardSpaceLocation.TopRight)
  | WinPosition.MiddleRow =>
      (BoardSpaceLocation.MiddleLeft, BoardSpaceLocation.MiddleMiddle,
        BoardSpaceLocation.MiddleRight)
  | WinPosition.BottomRow =>
      (BoardSpaceLocation.BottomLeft, BoardSpaceLocation.BottomMiddle,
        BoardSpaceLocation.BottomRight)
  | WinPosition.LeftColumn =>
      (BoardSpaceLocation.TopLeft, BoardSpaceLocation.MiddleLeft, BoardSpaceLocation.BottomLeft)
  | WinPosition.MiddleColumn =>
      (BoardSpaceLocation.TopMiddle, BoardSpaceLocation.MiddleMiddle,
        BoardSpaceLocation.BottomMiddle)
  | WinPosition.RightColumn =>
      (BoardSpaceLocation.TopRight, BoardSpaceLocation.MiddleRight,
        BoardSpaceLocation.BottomRight)
  | WinPosition.TopLeftToBottomRight =>
      (BoardSpaceLocation.TopLeft, BoardSpaceLocation.MiddleMiddle,
        BoardSpaceLocation.BottomRight)
  | WinPosition.BottomLeftToTopRight =>
      (BoardSpaceLocation.BottomLeft, BoardSpaceLocation.MiddleMiddle,
        BoardSpaceLocation.TopRight)

/-- the list returned by `WinPosition::all`, in its enumeration order. -/
def WinPosition.all : List WinPosition :=
  [WinPosition.TopRow,
   WinPosition.MiddleRow,
   WinPosition.BottomRow,
   WinPosition.LeftColumn,
   WinPosition.MiddleColumn,
   WinPosition.RightColumn,
   WinPosition.TopLeftToBottomRight,
   WinPosition.BottomLeftToTopRight]

/-- the outcome of a game (`game_outcome.rs`, `GameOutcome`). -/
inductive GameOutcome where
  | PlayerX (w : WinPosition)
  | PlayerO (w : WinPosition)
  | Draw
  | Incomplete
deriving DecidableEq, Repr

/-- the win-position scan loop of `GameOutcome::analyze_game`: walk the
remaining win positions in order; if the three spaces of a position hold
the same non-Empty mark, return the corresponding winner outcome (with
that position); otherwise keep scanning.  Returns `none` when no win
position matches. -/
def GameOutcome.checkWins (board : GameBoard) : List WinPosition → Option GameOutcome
  | [] => none
  | win_position :: rest =>
    let spaces := win_position.as_board_spaces
    let possible_winner := board.space spaces.1
    if board.space spaces.2.1 = possible_winner ∧ board.space spaces.2.2 = possible_winner then
      match possible_winner with
      | BoardSpace.Empty => GameOutcome.checkWins board rest
      | BoardSpace.X => some (GameOutcome.PlayerX win_position)
      | BoardSpace.O => some (GameOutcome.PlayerO win_position)
    else
      GameOutcome.checkWins board rest

/-- `GameOutcome::analyze_game`: scan the win positions in order; if none
matches, the outcome is `Incomplete` when some space is Empty and `Draw`
otherwise. -/
def GameOutcome.analyze_game (board : GameBoard) : GameOutcome :=
  match GameOutcome.checkWins board WinPosition.all with
  | some outcome => outcome
  | none =>
    if board.empties.isEmpty then GameOutcome.Draw else GameOutcome.Incomplete

/-- `GameBoard::game_outcome`, a convenience wrapper for
`GameOutcome::analyze_game`. -/
def GameBoard.game_outcome (board : GameBoard) : GameOutcome :=
  GameOutcome.analyze_game board

/-- `GameOutcome::game_finished`: every outcome but `Incomplete` is
finished. -/
def GameOutcome.game_finished : GameOutcome → Bool
  | GameOutcome.Incomplete => false
  | _ => true

/-- the two players (`lib.rs`, `ActivePlayer`). -/
inductive ActivePlayer where
  | PlayerX
  | PlayerO
deriving DecidableEq, Repr

/-- `ActivePlayer::opposite`. -/
def ActivePlayer.opposite : ActivePlayer → ActivePlayer
  | ActivePlayer.PlayerO => ActivePlayer.PlayerX
  | ActivePlayer.PlayerX => ActivePlayer.PlayerO

/-- `ActivePlayer::get_board_space`: the mark a player writes. -/
def ActivePlayer.get_board_space : ActivePlayer → BoardSpace
  | ActivePlayer.PlayerX => BoardSpace.X
  | ActivePlayer.PlayerO => BoardSpace.O

/-- every location occurs in the `BoardSpaceLocation::all` enumeration. -/
theorem BoardSpaceLocation.mem_all (l : BoardSpaceLocation) : l ∈ BoardSpaceLocation.all := by
  cases l <;> decide

/-- the `BoardSpaceLocation::all` enumeration lists each location once. -/
theorem BoardSpaceLocation.all_nodup : BoardSpaceLocation.all.Nodup := by decide

/-- membership in `GameBoard.empties` is exactly emptiness of the space. -/
theorem GameBoard.mem_empties {board : GameBoard} {loc : BoardSpaceLocation} :
    loc ∈ board.empties ↔ board.space loc = BoardSpace.Empty := by
  simp [GameBoard.empties, List.mem_filter, BoardSpaceLocation.mem_all]

/-- reading the written space of `GameBoard.set`. -/
theorem GameBoard.space_set_self (board : GameBoard) (loc : BoardSpaceLocation)
    (s : BoardSpace) : (board.set loc s).space loc = s := by
  simp [GameBoard.set]

/-- reading any other space of `GameBoard.set`. -/
theorem GameBoard.space_set_other (board : GameBoard) (loc l : BoardSpaceLocation)
    (s : BoardSpace) (h : l ≠ loc) : (board.set loc s).space l = board.space l := by
  simp [GameBoard.set, h]

/-- one flip of a list element from satisfying `p` to failing `p'` (all
other elements judged alike) shortens the filtered list by exactly one,
provided the list has no duplicates. -/
theorem length_filter_flip {α : Type} (p q : α → Bool) (l0 : α) (hp : p l0 = true)
    (hq : q l0 = false) (hother : ∀ x, x ≠ l0 → q x = p x) :
    ∀ {L : List α}, L.Nodup → l0 ∈ L → (L.filter q).length + 1 = (L.filter p).length := by
  intro L
  induction L with
  | nil => intro _ h; cases h
  | cons a L ih =>
    intro hnd hmem
    rcases List.nodup_cons.mp hnd with ⟨ha, hndL⟩
    rcases List.mem_cons.mp hmem with rfl | hmemL
    · have hfq : L.filter q = L.filter p := by
        apply List.filter_congr
        intro x hx
        exact hother x (fun hxa => ha (hxa ▸ hx))
      simp [List.filter_cons, hp, hq, hfq]
    · have haq : q a = p a := hother a (fun h => ha (h ▸ hmemL))
      by_cases hpa : p a = true
      · simp [List.filter_cons, hpa, haq, ih hndL hmemL]
      · have hpa' : p a = false := by simpa using hpa
        simp [List.filter_cons, hpa', haq ▸ hpa', ih hndL hmemL]

/-- writing a non-Empty mark on an Empty space removes exactly that one
location from the Empty-space list. -/
theorem GameBoard.length_empties_set (board : GameBoard) (loc : BoardSpaceLocation)
    (s : BoardSpace) (hloc : board.space loc = BoardSpace.Empty)
    (hs : s ≠ BoardSpace.Empty) :
    ((board.set loc s).empties).length + 1 = (board.empties).length := by
  apply length_filter_flip
    (fun location => decide (board.space location = BoardSpace.Empty))
    (fun location => decide ((board.set loc s).space location = BoardSpace.Empty))
    loc
  · simpa using hloc
  · simpa [GameBoard.space_set_self] using hs
  · intro x hx
    simp [GameBoard.space_set_other board loc x s hx]
  · exact BoardSpaceLocation.all_nodup
  · exact BoardSpaceLocation.mem_all loc

/-- writing a non-Empty mark on an Empty space strictly shrinks the
Empty-space list. -/
theorem GameBoard.length_empties_set_lt (board : GameBoard) (loc : BoardSpaceLocation)
    (s : BoardSpace) (hloc : board.space loc = BoardSpace.Empty)
    (hs : s ≠ BoardSpace.Empty) :
    ((board.set loc s).empties).length < (board.empties).length := by
  have := GameBoard.length_empties_set board loc s hloc hs
  omega

/-- a player's mark is never the Empty space. -/
theorem ActivePlayer.get_board_space_ne_empty (p : ActivePlayer) :
    p.get_board_space ≠ BoardSpace.Empty := by
  cases p <;> simp [ActivePlayer.get_board_space]

/-- a candidate move (`ai.rs`, `PossibleMove`): the location it plays and
its evaluated win score. -/
structure PossibleMove where
  new_location : BoardSpaceLocation
  win_score : ℚ
deriving DecidableEq, Repr

instance : Inhabited PossibleMove :=
  ⟨{ new_location := BoardSpaceLocation.TopLeft, win_score := 0 }⟩

/-- `PossibleMove::calculate_win_score`: with sub-moves, half the average
of their scores; without, the terminal score of the board for the
`winning_player` perspective (`+1` own win, `-1` opposing win, `0` for
`Draw` and `Incomplete`). -/
def PossibleMove.calculate_win_score (sub_moves : List PossibleMove) (board : GameBoard)
    (winning_player : ActivePlayer) : ℚ :=
  let sub_move_count := sub_moves.length
  if 0 < sub_move_count then
    let total_wins : ℚ := (sub_moves.map PossibleMove.win_score).sum
    total_wins / (sub_move_count : ℚ) * (1 / 2)
  else
    match board.game_outcome with
    | GameOutcome.PlayerX _ =>
      match winning_player with
      | ActivePlayer.PlayerX => 1
      | ActivePlayer.PlayerO => -1
    | GameOutcome.PlayerO _ =>
      match winning_player with
      | ActivePlayer.PlayerX => -1
      | ActivePlayer.PlayerO => 1
    | _ => 0

/-- `PossibleMove::new`: play `active_player`'s mark at `new_location` on a
clone of `board`; if the resulting board is not finished, recursively
evaluate every Empty location of it for the opposite player (same
`winning_player` perspective), and score via `calculate_win_score`.
`List.attach` carries the membership proof of each Empty sub-location,
used only for the termination measure (number of Empty spaces of the
played board, which strictly decreases at each recursive call). -/
def PossibleMove.new (board : GameBoard) (new_location : BoardSpaceLocation)
    (active_player : ActivePlayer) (winning_player : ActivePlayer) : PossibleMove :=
  let new_board := board.set new_location active_player.get_board_space
  let sub_moves : List PossibleMove :=
    if new_board.game_outcome.game_finished = false then
      new_board.empties.attach.map fun sub_location =>
        PossibleMove.new new_board sub_location.1 active_player.opposite winning_player
    else
      []
  { new_location := new_location
    win_score := PossibleMove.calculate_win_score sub_moves new_board winning_player }
termination_by ((board.set new_location active_player.get_board_space).empties).length
decreasing_by
  exact GameBoard.length_empties_set_lt _ _ _
    (GameBoard.mem_empties.mp sub_location.2)
    (ActivePlayer.get_board_space_ne_empty _)

/-- reasons a turn may fail (`ai.rs`, `AiError`). -/
inductive AiError where
  | GameFinished
  | NoMovesFound
deriving DecidableEq, Repr

/-- the AI player (`ai.rs`, `AiPlayer`): holds only its difficulty. -/
structure AiPlayer where
  difficulty : ℚ
deriving DecidableEq, Repr

/-- `AiPlayer::default`: difficulty `1.0`. -/
def AiPlayer.default : AiPlayer := { difficulty := 1 }

/-- `AiPlayer::set_difficulty`: panics (modelled as `none`) when
`difficulty < 0.0 || difficulty > 1.0 || difficulty.is_nan()`; otherwise
stores the value.  (`is_nan` is vacuous over `ℚ`.) -/
def AiPlayer.set_difficulty (self : AiPlayer) (difficulty : ℚ) : Option AiPlayer :=
  if difficulty < 0 ∨ 1 < difficulty then
    none
  else
    some { self with difficulty := difficulty }

/-- `AiPlayer::new`: `Self::default()` followed by `set_difficulty`. -/
def AiPlayer.new (difficulty : ℚ) : Option AiPlayer :=
  AiPlayer.default.set_difficulty difficulty

/-- `AiPlayer::mistake_chance`: `(1.0 - difficulty).min(1.0).max(0.0)`. -/
def AiPlayer.mistake_chance (self : AiPlayer) : ℚ :=
  max (min (1 - self.difficulty) 1) 0

/-- the `possible_moves` generation loop of `AiPlayer::do_turn`: one
`PossibleMove` per Empty location of the board, in enumeration order, with
the active player as both the acting and the perspective player. -/
def AiPlayer.possible_moves (board : GameBoard) (player : ActivePlayer) :
    List PossibleMove :=
  board.empties.map fun location => PossibleMove.new board location player player

/-- the comparator passed to `sort_by` in `AiPlayer::do_turn`:
`win_score.partial_cmp`, with unordered pairs treated as equal.  Rational
scores are totally ordered, so this is exactly `≤` on scores. -/
def AiPlayer.moveLe (move_a move_b : PossibleMove) : Bool :=
  move_a.win_score ≤ move_b.win_score

/-- `AiPlayer::do_turn` with the one random draw `r` (drawn from
`[0.0, 1.0)` by `rng.gen_range`) passed explicitly.  Fails with
`GameFinished` on a finished board and `NoMovesFound` when no Empty space
exists; otherwise sorts the candidates ascending by score (stable), makes
a mistake exactly when `mistake_chance > r` (selecting index
`difficulty * len` truncated-to-integer, falling back to the first
candidate when out of bounds), plays optimally (last candidate) otherwise,
and returns a clone of the board with the chosen location marked. -/
def AiPlayer.do_turn (self : AiPlayer) (board : GameBoard) (player : ActivePlayer)
    (r : ℚ) : Except AiError GameBoard :=
  if board.game_outcome.game_finished then
    Except.error AiError.GameFinished
  else
    let possible_moves := AiPlayer.possible_moves board player
    if possible_moves.isEmpty then
      Except.error AiError.NoMovesFound
    else
      let sorted_moves := possible_moves.mergeSort AiPlayer.moveLe
      let do_mistake := self.mistake_chance > r
      let next_move :=
        if do_mistake then
          let move_index := (⌊self.difficulty * (sorted_moves.length : ℚ)⌋).toNat
          match sorted_moves[move_index]? with
          | some pmove => pmove
          | none => sorted_moves.headI
        else
          sorted_moves.getLastI
      Except.ok (board.set next_move.new_location player.get_board_space)

/-- an outcome is unfinished exactly when it is `Incomplete`. -/
theorem GameOutcome.game_finished_eq_false_iff (o : GameOutcome) :
    o.game_finished = false ↔ o = GameOutcome.Incomplete := by
  cases o <;> simp [GameOutcome.game_finished]

/-- the win-position scan never reports `Incomplete`. -/
theorem GameOutcome.checkWins_ne_incomplete (board : GameBoard) :
    ∀ L : List WinPosition, GameOutcome.checkWins board L ≠ some GameOutcome.Incomplete := by
  intro L
  induction L with
  | nil => simp [GameOutcome.checkWins]
  | cons wp rest ih =>
    simp only [GameOutcome.checkWins]
    split
    · split <;> simp_all
    · exact ih

/-- an `Incomplete` board has at least one Empty space. -/
theorem GameBoard.empties_ne_nil_of_incomplete {board : GameBoard}
    (h : board.game_outcome = GameOutcome.Incomplete) : board.empties ≠ [] := by
  intro hnil
  rw [GameBoard.game_outcome, GameOutcome.analyze_game] at h
  cases hc : GameOutcome.checkWins board WinPosition.all with
  | none => rw [hc, hnil] at h; simp at h
  | some o =>
    rw [hc] at h
    exact GameOutcome.checkWins_ne_incomplete board WinPosition.all (h ▸ hc)

/-- `PossibleMove::new` records the location it was given. -/
theorem PossibleMove.new_location_new (board : GameBoard) (loc : BoardSpaceLocation)
    (ap wp : ActivePlayer) : (PossibleMove.new board loc ap wp).new_location = loc := by
  rw [PossibleMove.new]

/-- on a finished played board, `PossibleMove::new` builds no sub-moves. -/
theorem PossibleMove.new_win_score_of_finished (board : GameBoard)
    (loc : BoardSpaceLocation) (ap wp : ActivePlayer)
    (h : ((board.set loc ap.get_board_space).game_outcome).game_finished = true) :
    (PossibleMove.new board loc ap wp).win_score =
      PossibleMove.calculate_win_score [] (board.set loc ap.get_board_space) wp := by
  rw [PossibleMove.new]
  simp [h]

/-- on an in-progress played board, `PossibleMove::new` evaluates one
sub-move per Empty space of the played board, acting side flipped. -/
theorem PossibleMove.new_win_score_of_incomplete (board : GameBoard)
    (loc : BoardSpaceLocation) (ap wp : ActivePlayer)
    (h : (board.set loc ap.get_board_space).game_outcome = GameOutcome.Incomplete) :
    (PossibleMove.new board loc ap wp).win_score =
      PossibleMove.calculate_win_score
        ((board.set loc ap.get_board_space).empties.map fun sub_loc =>
          PossibleMove.new (board.set loc ap.get_board_space) sub_loc ap.opposite wp)
        (board.set loc ap.get_board_space) wp := by
  rw [PossibleMove.new]
  have hf : ((board.set loc ap.get_board_space).game_outcome).game_finished = false :=
    (GameOutcome.game_finished_eq_false_iff _).mpr h
  simp only [hf, if_true]
  simp [List.attach_map_val]

/-- an example board position:
```
 X | X |
-----------
 O | O |
-----------
   |   |
```
with X to act. -/
def exampleBoardNearWin : GameBoard :=
  { space := fun l =>
      match l with
      | BoardSpaceLocation.TopLeft => BoardSpace.X
      | BoardSpaceLocation.TopMiddle => BoardSpace.X
      | BoardSpaceLocation.MiddleLeft => BoardSpace.O
      | BoardSpaceLocation.MiddleMiddle => BoardSpace.O
      | _ => BoardSpace.Empty }

/-- an example finished board, the spec's known draw pattern
`X O X / X O O / O X X` (columns read down: left `X X O`, middle `O O X`,
right `X O X`). -/
def exampleBoardDraw : GameBoard :=
  { space := fun l =>
      match l with
      | BoardSpaceLocation.TopLeft => BoardSpace.X
      | BoardSpaceLocation.TopMiddle => BoardSpace.O
      | BoardSpaceLocation.TopRight => BoardSpace.X
      | BoardSpaceLocation.MiddleLeft => BoardSpace.X
      | BoardSpaceLocation.MiddleMiddle => BoardSpace.O
      | BoardSpaceLocation.MiddleRight => BoardSpace.O
      | BoardSpaceLocation.BottomLeft => BoardSpace.O
      | BoardSpaceLocation.BottomMiddle => BoardSpace.X
      | BoardSpaceLocation.BottomRight => BoardSpace.X }

/-- C1: for every board and perspective side, a candidate move whose
resulting board is terminal (its outcome is not `Incomplete`) scores
exactly `+1` when the outcome is a win for the perspective side
(`winning_player`), exactly `-1` when it is a win for the opposite side,
and exactly `0` when it is a draw. -/
theorem terminal_move_score (board : GameBoard) (loc : BoardSpaceLocation)
    (ap wp : ActivePlayer) :
    (∀ w : WinPosition,
        (board.set loc ap.get_board_space).game_outcome = GameOutcome.PlayerX w →
        (PossibleMove.new board loc ap wp).win_score =
          if wp = ActivePlayer.PlayerX then 1 else -1) ∧
    (∀ w : WinPosition,
        (board.set loc ap.get_board_space).game_outcome = GameOutcome.PlayerO w →
        (PossibleMove.new board loc ap wp).win_score =
          if wp = ActivePlayer.PlayerO then 1 else -1) ∧
    ((board.set loc ap.get_board_space).game_outcome = GameOutcome.Draw →
        (PossibleMove.new board loc ap wp).win_score = 0) := by
  refine ⟨fun w hw => ?_, fun w hw => ?_, fun hw => ?_⟩ <;>
    rw [PossibleMove.new_win_score_of_finished board loc ap wp
        (by rw [hw]; rfl)] <;>
    cases wp <;>
    simp [PossibleMove.calculate_win_score, hw]

/-- C1 witness: on `exampleBoardNearWin`, X completing the top row is an
immediate X win and scores exactly `1` for perspective X. -/
theorem terminal_move_score_witness :
    (exampleBoardNearWin.set BoardSpaceLocation.TopRight
        ActivePlayer.PlayerX.get_board_space).game_outcome =
      GameOutcome.PlayerX WinPosition.TopRow ∧
    (PossibleMove.new exampleBoardNearWin BoardSpaceLocation.TopRight
        ActivePlayer.PlayerX ActivePlayer.PlayerX).win_score = 1 :=
  ⟨by decide, by
    simpa using
      (terminal_move_score exampleBoardNearWin BoardSpaceLocation.TopRight
        ActivePlayer.PlayerX ActivePlayer.PlayerX).1 WinPosition.TopRow (by decide)⟩

/-- C2: for every board and perspective side, a candidate move whose
resulting board is still in progress scores exactly one half times the
arithmetic mean of the scores of all its sub-moves, the sub-moves being
the evaluations of every Empty space of the resulting board with the
acting side flipped to its opposite and the same perspective side. -/
theorem in_progress_move_score (board : GameBoard) (loc : BoardSpaceLocation)
    (ap wp : ActivePlayer)
    (hprog : (board.set loc ap.get_board_space).game_outcome = GameOutcome.Incomplete) :
    (PossibleMove.new board loc ap wp).win_score =
      (1 / 2) *
        (((board.set loc ap.get_board_space).empties.map fun sub_loc =>
            (PossibleMove.new (board.set loc ap.get_board_space) sub_loc
              ap.opposite wp).win_score).sum /
          (((board.set loc ap.get_board_space).empties.length : ℚ))) := by
  rw [PossibleMove.new_win_score_of_incomplete board loc ap wp hprog]
  have hne : (board.set loc ap.get_board_space).empties ≠ [] :=
    GameBoard.empties_ne_nil_of_incomplete hprog
  have hlen : 0 < ((board.set loc ap.get_board_space).empties.map fun sub_loc =>
      PossibleMove.new (board.set loc ap.get_board_space) sub_loc ap.opposite wp).length := by
    simpa [List.length_map] using List.length_pos.mpr hne
  rw [PossibleMove.calculate_win_score.eq_def]
  simp only [hlen, if_pos]
  rw [List.map_map]
  simp [Function.comp_def, mul_comm]

/-- C2 witness: instantiated on `exampleBoardNearWin` with X playing
`MiddleRight`, whose resulting board is still in progress. -/
theorem in_progress_move_score_witness :
    (exampleBoardNearWin.set BoardSpaceLocation.MiddleRight
        ActivePlayer.PlayerX.get_board_space).game_outcome = GameOutcome.Incomplete ∧
    (PossibleMove.new exampleBoardNearWin BoardSpaceLocation.MiddleRight
        ActivePlayer.PlayerX ActivePlayer.PlayerX).win_score =
      (1 / 2) *
        (((exampleBoardNearWin.set BoardSpaceLocation.MiddleRight
              ActivePlayer.PlayerX.get_board_space).empties.map fun sub_loc =>
            (PossibleMove.new
              (exampleBoardNearWin.set BoardSpaceLocation.MiddleRight
                ActivePlayer.PlayerX.get_board_space) sub_loc
              ActivePlayer.PlayerX.opposite ActivePlayer.PlayerX).win_score).sum /
          (((exampleBoardNearWin.set BoardSpaceLocation.MiddleRight
              ActivePlayer.PlayerX.get_board_space).empties.length : ℚ))) :=
  ⟨by decide,
    in_progress_move_score exampleBoardNearWin BoardSpaceLocation.MiddleRight
      ActivePlayer.PlayerX ActivePlayer.PlayerX (by decide)⟩

/-- C3 counter-evidence: the guard of `AiPlayer::set_difficulty` is
`difficulty < 0.0 || difficulty > 1.0 || difficulty.is_nan()`, so the
value `0.0` — which the function's own doc comment ("panics if difficulty
is less than or equal to 0") and its panic message (range `(0.0,1.0]`)
declare invalid — passes the guard: `AiPlayer::new(0.0)` does not panic
and stores a difficulty of `0`, outside `(0.0, 1.0]`. -/
theorem set_difficulty_accepts_zero :
    AiPlayer.new 0 = some { difficulty := 0 } ∧
    ∀ self : AiPlayer, self.set_difficulty 0 = some { self with difficulty := 0 } := by
  constructor
  · decide
  · intro self
    rw [AiPlayer.set_difficulty]
    norm_num

/-- half the average of a nonempty list of values in `[-1, 1]` stays in
`[-1, 1]` (indeed in `[-1/2, 1/2]`). -/
theorem half_avg_bounds (L : List ℚ) (hL : L ≠ [])
    (h : ∀ x ∈ L, -1 ≤ x ∧ x ≤ 1) :
    -1 ≤ L.sum / (L.length : ℚ) * (1 / 2) ∧ L.sum / (L.length : ℚ) * (1 / 2) ≤ 1 := by
  have hk : (0 : ℚ) < (L.length : ℚ) := by
    exact_mod_cast List.length_pos.mpr hL
  have hsum_le : L.sum ≤ (L.length : ℚ) := by
    have := List.sum_le_card_nsmul L 1 (fun x hx => (h x hx).2)
    simpa using this
  have hsum_ge : -(L.length : ℚ) ≤ L.sum := by
    have := List.card_nsmul_le_sum L (-1) (fun x hx => (h x hx).1)
    simpa using this
  have h1 : L.sum / (L.length : ℚ) ≤ 1 := by
    rw [div_le_one₀ hk]; linarith
  have h2 : -1 ≤ L.sum / (L.length : ℚ) := by
    rw [le_div_iff₀ hk]; linarith
  constructor <;> linarith

/-- bound for the terminal branch of `calculate_win_score`: with no
sub-moves the score is one of `-1`, `0`, `1`. -/
theorem PossibleMove.calculate_win_score_nil_bounds (board : GameBoard)
    (wp : ActivePlayer) :
    -1 ≤ PossibleMove.calculate_win_score [] board wp ∧
      PossibleMove.calculate_win_score [] board wp ≤ 1 := by
  rw [PossibleMove.calculate_win_score.eq_def]
  simp only [List.length_nil]
  norm_num
  rcases board.game_outcome <;> rcases wp <;> norm_num

/-- unconditional one-step unfolding of the win score of
`PossibleMove::new`. -/
theorem PossibleMove.new_win_score (board : GameBoard) (loc : BoardSpaceLocation)
    (ap wp : ActivePlayer) :
    (PossibleMove.new board loc ap wp).win_score =
      PossibleMove.calculate_win_score
        (if ((board.set loc ap.get_board_space).game_outcome).game_finished = false then
          (board.set loc ap.get_board_space).empties.map fun sub_loc =>
            PossibleMove.new (board.set loc ap.get_board_space) sub_loc ap.opposite wp
        else [])
        (board.set loc ap.get_board_space) wp := by
  rw [PossibleMove.new]
  by_cases hf : ((board.set loc ap.get_board_space).game_outcome).game_finished = false
  · simp only [hf, if_true, if_pos]
    simp [List.attach_map_val]
  · simp [hf]

/-- auxiliary strong induction (on the Empty-space count of the played
board) for the win-score bound. -/
theorem PossibleMove.win_score_bounds_aux :
    ∀ (n : ℕ) (board : GameBoard) (loc : BoardSpaceLocation) (ap wp : ActivePlayer),
      ((board.set loc ap.get_board_space).empties).length ≤ n →
      -1 ≤ (PossibleMove.new board loc ap wp).win_score ∧
        (PossibleMove.new board loc ap wp).win_score ≤ 1 := by
  intro n
  induction n with
  | zero =>
    intro board loc ap wp hn
    have hnil : (board.set loc ap.get_board_space).empties = [] :=
      List.eq_nil_of_length_eq_zero (Nat.le_zero.mp hn)
    rw [PossibleMove.new_win_score]
    rcases hf : ((board.set loc ap.get_board_space).game_outcome).game_finished with _ | _
    · simp only [if_pos rfl, hnil, List.map_nil]
      exact PossibleMove.calculate_win_score_nil_bounds _ wp
    · rw [if_neg (fun h => Bool.noConfusion h)]
      exact PossibleMove.calculate_win_score_nil_bounds _ wp
  | succ n ih =>
    intro board loc ap wp hn
    rw [PossibleMove.new_win_score]
    rcases hf : ((board.set loc ap.get_board_space).game_outcome).game_finished with _ | _
    case false =>
      simp only [if_pos rfl]
      rcases hnil : (board.set loc ap.get_board_space).empties with _ | ⟨e, es⟩
      · simp only [List.map_nil]
        exact PossibleMove.calculate_win_score_nil_bounds _ wp
      · rw [← hnil]
        have hne : (board.set loc ap.get_board_space).empties ≠ [] := by
          rw [hnil]; simp
        have hlen : 0 < ((board.set loc ap.get_board_space).empties.map fun sub_loc =>
            PossibleMove.new (board.set loc ap.get_board_space) sub_loc ap.opposite wp).length := by
          simpa [List.length_map] using List.length_pos.mpr hne
        rw [PossibleMove.calculate_win_score.eq_def]
        simp only [hlen, if_pos]
        rw [List.map_map, List.length_map]
        have hbounds : ∀ x ∈ ((board.set loc ap.get_board_space).empties.map
            ((fun m => PossibleMove.win_score m) ∘ fun sub_loc =>
              PossibleMove.new (board.set loc ap.get_board_space) sub_loc ap.opposite wp)),
            -1 ≤ x ∧ x ≤ 1 := by
          intro x hx
          rcases List.mem_map.mp hx with ⟨sl, hsl, rfl⟩
          apply ih
          have hdec := GameBoard.length_empties_set (board.set loc ap.get_board_space) sl
            (ActivePlayer.opposite ap).get_board_space
            (GameBoard.mem_empties.mp hsl)
            (ActivePlayer.get_board_space_ne_empty _)
          omega
        have := half_avg_bounds _ (by simpa [List.length_map] using hne) hbounds
        simpa [List.length_map] using this
    case true =>
      rw [if_neg (fun h => Bool.noConfusion h)]
      exact PossibleMove.calculate_win_score_nil_bounds _ wp

/-- C6: for every board, played location, acting side and perspective side,
the win score produced by move evaluation lies in the closed interval
`[-1, 1]`.  Every score produced during evaluation — including every
element of the top-level candidate list of `do_turn` — is the score of
such a `PossibleMove::new` call. -/
theorem win_score_bounded (board : GameBoard) (loc : BoardSpaceLocation)
    (ap wp : ActivePlayer) :
    -1 ≤ (PossibleMove.new board loc ap wp).win_score ∧
      (PossibleMove.new board loc ap wp).win_score ≤ 1 :=
  PossibleMove.win_score_bounds_aux
    ((board.set loc ap.get_board_space).empties).length board loc ap wp le_rfl

/-- C7: calling `do_turn` on a board whose outcome is already `Won` or
`Draw` (i.e. finished) fails with `GameFinished`, for every active side,
difficulty and random draw.  Boards are immutable values in this
embedding, matching the source, where `do_turn` takes `&GameBoard` and
only ever writes to a clone; the early return happens before any
candidate is generated or applied. -/
theorem do_turn_game_finished (self : AiPlayer) (board : GameBoard)
    (player : ActivePlayer) (r : ℚ)
    (h : board.game_outcome.game_finished = true) :
    self.do_turn board player r = Except.error AiError.GameFinished := by
  rw [AiPlayer.do_turn]
  simp [h]

/-- C7 witness: the spec's draw pattern `X O X / X O O / O X X` is
classified `Draw`, and `do_turn` on it returns `GameFinished`. -/
theorem do_turn_game_finished_witness :
    exampleBoardDraw.game_outcome = GameOutcome.Draw ∧
    exampleBoardDraw.game_outcome.game_finished = true ∧
    (AiPlayer.mk 1).do_turn exampleBoardDraw ActivePlayer.PlayerX 0 =
      Except.error AiError.GameFinished :=
  ⟨by decide, by decide,
    do_turn_game_finished (AiPlayer.mk 1) exampleBoardDraw ActivePlayer.PlayerX 0 (by decide)⟩

/-- C8: for every in-progress board and active side, the candidate list
built by `do_turn` has exactly one entry per Empty space of the input
board: its length is the number of Empty spaces, and its recorded
locations are exactly the Empty locations in enumeration order. -/
theorem possible_moves_count (board : GameBoard) (player : ActivePlayer)
    (hprog : board.game_outcome = GameOutcome.Incomplete) :
    (AiPlayer.possible_moves board player).length = board.empties.length ∧
      (AiPlayer.possible_moves board player).map PossibleMove.new_location =
        board.empties := by
  constructor
  · simp [AiPlayer.possible_moves]
  · rw [AiPlayer.possible_moves, List.map_map]
    have : (PossibleMove.new_location ∘ fun location =>
        PossibleMove.new board location player player) = id := by
      funext location
      simp [PossibleMove.new_location_new]
    rw [this, List.map_id]

/-- C8 witness: instantiated on the in-progress `exampleBoardNearWin`. -/
theorem possible_moves_count_witness :
    exampleBoardNearWin.game_outcome = GameOutcome.Incomplete ∧
    (AiPlayer.possible_moves exampleBoardNearWin ActivePlayer.PlayerX).length =
      exampleBoardNearWin.empties.length :=
  ⟨by decide,
    (possible_moves_count exampleBoardNearWin ActivePlayer.PlayerX (by decide)).1⟩

/-- C9: termination of the recursive evaluation.  `PossibleMove.new` is a
total function in this embedding, defined by well-founded recursion on the
number of Empty spaces of the played board; the three facts below are
exactly what bounds that recursion: (a) each recursive level writes a
player's (non-Empty) mark on an Empty space of a board copy and so
strictly decreases the Empty count by one; (b) the Empty count at the root
is at most `9`; (c) a board with no Empty space is never classified
`Incomplete`, so the recursion base case is always reached. -/
theorem evaluation_terminates :
    (∀ (board : GameBoard) (loc : BoardSpaceLocation) (s : BoardSpace),
        board.space loc = BoardSpace.Empty → s ≠ BoardSpace.Empty →
        ((board.set loc s).empties).length + 1 = board.empties.length) ∧
    (∀ board : GameBoard, board.empties.length ≤ 9) ∧
    (∀ board : GameBoard, board.empties = [] →
        board.game_outcome ≠ GameOutcome.Incomplete) := by
  refine ⟨GameBoard.length_empties_set, fun board => ?_, fun board h hcon => ?_⟩
  · have := List.length_filter_le
      (fun location => decide (board.space location = BoardSpace.Empty))
      BoardSpaceLocation.all
    simpa [GameBoard.empties] using this
  · exact GameBoard.empties_ne_nil_of_incomplete hcon h

/-- C9 witness: instantiated at the empty board (for the decrement and the
bound) and at the full draw board (for the no-recursion-at-full-board
fact). -/
theorem evaluation_terminates_witness :
    ((({ space := fun _ => BoardSpace.Empty } : GameBoard).set
        BoardSpaceLocation.TopLeft BoardSpace.X).empties).length + 1 =
      ({ space := fun _ => BoardSpace.Empty } : GameBoard).empties.length ∧
    ({ space := fun _ => BoardSpace.Empty } : GameBoard).empties.length ≤ 9 ∧
    exampleBoardDraw.game_outcome ≠ GameOutcome.Incomplete :=
  ⟨evaluation_terminates.1 { space := fun _ => BoardSpace.Empty }
      BoardSpaceLocation.TopLeft BoardSpace.X (by decide) (by decide),
    evaluation_terminates.2.1 { space := fun _ => BoardSpace.Empty },
    evaluation_terminates.2.2 exampleBoardDraw (by decide)⟩

/-- the sort comparator holds exactly when the scores are ordered. -/
theorem AiPlayer.moveLe_iff (a b : PossibleMove) :
    AiPlayer.moveLe a b = true ↔ a.win_score ≤ b.win_score := by
  simp [AiPlayer.moveLe]

/-- the sort comparator is transitive. -/
theorem AiPlayer.moveLe_trans (a b c : PossibleMove) (hab : AiPlayer.moveLe a b)
    (hbc : AiPlayer.moveLe b c) : AiPlayer.moveLe a c := by
  rw [AiPlayer.moveLe_iff] at hab hbc ⊢
  exact le_trans hab hbc

/-- the sort comparator is total. -/
theorem AiPlayer.moveLe_total (a b : PossibleMove) :
    AiPlayer.moveLe a b || AiPlayer.moveLe b a := by
  rcases le_total a.win_score b.win_score with h | h <;> simp [AiPlayer.moveLe, h]

/-- an in-progress board yields a nonempty candidate list. -/
theorem AiPlayer.possible_moves_ne_nil {board : GameBoard} {player : ActivePlayer}
    (hprog : board.game_outcome = GameOutcome.Incomplete) :
    AiPlayer.possible_moves board player ≠ [] := by
  have h := GameBoard.empties_ne_nil_of_incomplete hprog
  simp [AiPlayer.possible_moves, h]

/-- every candidate records an Empty location of the input board. -/
theorem AiPlayer.mem_possible_moves_empty {board : GameBoard} {player : ActivePlayer}
    {m : PossibleMove} (hm : m ∈ AiPlayer.possible_moves board player) :
    board.space m.new_location = BoardSpace.Empty := by
  rcases List.mem_map.mp hm with ⟨loc, hloc, rfl⟩
  rw [PossibleMove.new_location_new]
  exact GameBoard.mem_empties.mp hloc

/-- the default-valued head of a nonempty list is a member. -/
theorem headI_mem {α : Type} [Inhabited α] {l : List α} (h : l ≠ []) : l.headI ∈ l := by
  cases l with
  | nil => exact absurd rfl h
  | cons a t => simp

/-- the default-valued last element of a nonempty list is a member. -/
theorem getLastI_mem {α : Type} [Inhabited α] {l : List α} (h : l ≠ []) :
    l.getLastI ∈ l := by
  rw [List.getLastI_eq_getLast?, List.getLast?_eq_getLast l h, Option.iget_some]
  exact List.getLast_mem h

/-- in a list sorted ascending by score, every member's score is at most
the last element's score. -/
theorem le_getLastI_of_pairwise :
    ∀ {l : List PossibleMove}, l.Pairwise (fun a b => a.win_score ≤ b.win_score) →
      ∀ m ∈ l, m.win_score ≤ l.getLastI.win_score := by
  intro l
  induction l with
  | nil => intro _ m hm; cases hm
  | cons a t ih =>
    intro hp m hm
    rcases List.pairwise_cons.mp hp with ⟨ha, ht⟩
    cases t with
    | nil =>
      rcases List.mem_singleton.mp (by simpa using hm) with rfl
      simp [List.getLastI]
    | cons b t' =>
      have hgl : (a :: b :: t').getLastI = (b :: t').getLastI := by
        rw [List.getLastI_eq_getLast?, List.getLastI_eq_getLast?,
          List.getLast?_cons_cons]
      have hlast_mem : (b :: t').getLastI ∈ b :: t' := getLastI_mem (by simp)
      rcases List.mem_cons.mp hm with rfl | hm'
      · rw [hgl]; exact ha _ hlast_mem
      · rw [hgl]; exact ih ht m hm'

/-- unfolding of `do_turn` on an in-progress board: the move played is the
mistake-index candidate (falling back to the first) on a mistake, the last
(sorted) candidate otherwise. -/
theorem AiPlayer.do_turn_eq_of_incomplete (self : AiPlayer) (board : GameBoard)
    (player : ActivePlayer) (r : ℚ)
    (hprog : board.game_outcome = GameOutcome.Incomplete) :
    self.do_turn board player r =
      Except.ok (board.set
        (if self.mistake_chance > r then
          match ((AiPlayer.possible_moves board player).mergeSort
              AiPlayer.moveLe)[(⌊self.difficulty *
                ((((AiPlayer.possible_moves board player).mergeSort
                  AiPlayer.moveLe)).length : ℚ)⌋).toNat]? with
          | some pmove => pmove
          | none => ((AiPlayer.possible_moves board player).mergeSort
              AiPlayer.moveLe).headI
        else
          ((AiPlayer.possible_moves board player).mergeSort
            AiPlayer.moveLe).getLastI).new_location
        player.get_board_space) := by
  rw [AiPlayer.do_turn]
  have hf : board.game_outcome.game_finished = false := by rw [hprog]; rfl
  have hne : AiPlayer.possible_moves board player ≠ [] :=
    AiPlayer.possible_moves_ne_nil hprog
  have hemp : (AiPlayer.possible_moves board player).isEmpty = false :=
    List.isEmpty_eq_false.mpr hne
  simp only [hf, Bool.false_eq_true, if_false, hemp]

/-- the sorted candidate list is pairwise ordered by score. -/
theorem sorted_possible_moves_pairwise (board : GameBoard) (player : ActivePlayer) :
    ((AiPlayer.possible_moves board player).mergeSort AiPlayer.moveLe).Pairwise
      (fun a b => a.win_score ≤ b.win_score) := by
  have h := List.sorted_mergeSort
    (fun a b c => AiPlayer.moveLe_trans a b c)
    (fun a b => AiPlayer.moveLe_total a b)
    (AiPlayer.possible_moves board player)
  exact h.imp fun hab => (AiPlayer.moveLe_iff _ _).mp hab

/-- a difficulty-`1` player has zero mistake chance. -/
theorem AiPlayer.mistake_chance_one : (AiPlayer.mk 1).mistake_chance = 0 := by
  norm_num [AiPlayer.mistake_chance]

/-- C4: on an in-progress board, a difficulty-`1.0` player (mistake chance
`0.0`) plays the same move for every nonnegative random draw — the result
does not depend on the draw — and that move's score is maximal among all
evaluated candidates. -/
theorem do_turn_optimal_at_full_difficulty (board : GameBoard)
    (player : ActivePlayer) (r r' : ℚ) (hr : 0 ≤ r) (hr' : 0 ≤ r')
    (hprog : board.game_outcome = GameOutcome.Incomplete) :
    (AiPlayer.mk 1).do_turn board player r = (AiPlayer.mk 1).do_turn board player r' ∧
    ∃ best ∈ AiPlayer.possible_moves board player,
      (∀ m ∈ AiPlayer.possible_moves board player, m.win_score ≤ best.win_score) ∧
      (AiPlayer.mk 1).do_turn board player r =
        Except.ok (board.set best.new_location player.get_board_space) := by
  have hno : ∀ s : ℚ, 0 ≤ s → ¬((AiPlayer.mk 1).mistake_chance > s) := by
    intro s hs
    rw [AiPlayer.mistake_chance_one]
    exact not_lt.mpr hs
  have hr1 := AiPlayer.do_turn_eq_of_incomplete (AiPlayer.mk 1) board player r hprog
  have hr2 := AiPlayer.do_turn_eq_of_incomplete (AiPlayer.mk 1) board player r' hprog
  rw [if_neg (hno r hr)] at hr1
  rw [if_neg (hno r' hr')] at hr2
  have hne : AiPlayer.possible_moves board player ≠ [] :=
    AiPlayer.possible_moves_ne_nil hprog
  have hsne : (AiPlayer.possible_moves board player).mergeSort AiPlayer.moveLe ≠ [] := by
    intro hnil
    apply hne
    have := List.mergeSort_perm (AiPlayer.possible_moves board player) AiPlayer.moveLe
    rw [hnil] at this
    exact this.symm.eq_nil
  refine ⟨hr1.trans hr2.symm, ⟨_, ?_, ?_, hr1⟩⟩
  · exact List.mem_mergeSort.mp (getLastI_mem hsne)
  · intro m hm
    exact le_getLastI_of_pairwise (sorted_possible_moves_pairwise board player) m
      (List.mem_mergeSort.mpr hm)

/-- C4 witness: instantiated on `exampleBoardNearWin` with draws `0` and
`1/2`. -/
theorem do_turn_optimal_at_full_difficulty_witness :
    (0 : ℚ) ≤ 0 ∧ (0 : ℚ) ≤ 1 / 2 ∧
    exampleBoardNearWin.game_outcome = GameOutcome.Incomplete ∧
    ((AiPlayer.mk 1).do_turn exampleBoardNearWin ActivePlayer.PlayerX 0 =
        (AiPlayer.mk 1).do_turn exampleBoardNearWin ActivePlayer.PlayerX (1 / 2) ∧
      ∃ best ∈ AiPlayer.possible_moves exampleBoardNearWin ActivePlayer.PlayerX,
        (∀ m ∈ AiPlayer.possible_moves exampleBoardNearWin ActivePlayer.PlayerX,
          m.win_score ≤ best.win_score) ∧
        (AiPlayer.mk 1).do_turn exampleBoardNearWin ActivePlayer.PlayerX 0 =
          Except.ok (exampleBoardNearWin.set best.new_location
            ActivePlayer.PlayerX.get_board_space)) :=
  ⟨le_refl 0, by norm_num, by decide,
    do_turn_optimal_at_full_difficulty exampleBoardNearWin ActivePlayer.PlayerX 0 (1 / 2)
      (le_refl 0) (by norm_num) (by decide)⟩

/-- stability of the candidate sort: for each score value, the sorted list
keeps the score's candidates in their original enumeration order, so the
filtered sublists agree. -/
theorem mergeSort_filter_score (l : List PossibleMove) (q : ℚ) :
    (l.mergeSort AiPlayer.moveLe).filter (fun m => m.win_score = q) =
      l.filter (fun m => m.win_score = q) := by
  have hpw : (l.filter fun m => m.win_score = q).Pairwise
      (fun a b => AiPlayer.moveLe a b = true) := by
    apply List.pairwise_of_forall_mem_list
    intro a ha b hb
    have ha' := (List.mem_filter.mp ha).2
    have hb' := (List.mem_filter.mp hb).2
    rw [decide_eq_true_iff] at ha' hb'
    rw [AiPlayer.moveLe_iff, ha', hb']
  have hsub : List.Sublist (l.filter fun m => m.win_score = q)
      (l.mergeSort AiPlayer.moveLe) :=
    List.sublist_mergeSort (fun a b c => AiPlayer.moveLe_trans a b c)
      (fun a b => AiPlayer.moveLe_total a b) hpw (List.filter_sublist l)
  have hsub2 := hsub.filter (fun m => m.win_score = q)
  rw [List.filter_filter] at hsub2
  simp only [Bool.and_self] at hsub2
  have hperm : ((l.mergeSort AiPlayer.moveLe).filter fun m => m.win_score = q).Perm
      (l.filter fun m => m.win_score = q) :=
    (List.mergeSort_perm l AiPlayer.moveLe).filter _
  exact (hsub2.eq_of_length hperm.length_eq.symm).symm

/-- C5: on an in-progress board, with a valid difficulty `d` and a random
draw `r ∈ [0, 1)` for which a mistake occurs (`clamp(1-d,0,1) > r`),
`do_turn` plays the candidate at index `⌊d × candidate_count⌋` of the list
of candidates sorted ascending by score with ties kept in enumeration
order (the conjuncts characterize that list: it is a permutation of the
candidates, pairwise ordered by score, and score-classwise identical to
the unsorted list), falling back to the first (lowest-scoring) candidate
when that index is out of bounds (`List.getD`'s default). -/
theorem do_turn_mistake_selection (d r : ℚ) (board : GameBoard) (player : ActivePlayer)
    (hd0 : 0 < d) (hd1 : d ≤ 1) (hr0 : 0 ≤ r) (hr1 : r < 1)
    (hprog : board.game_outcome = GameOutcome.Incomplete)
    (hmistake : (AiPlayer.mk d).mistake_chance > r) :
    ∃ sorted_moves : List PossibleMove,
      sorted_moves.Perm (AiPlayer.possible_moves board player) ∧
      sorted_moves.Pairwise (fun a b => a.win_score ≤ b.win_score) ∧
      (∀ q : ℚ, sorted_moves.filter (fun m => m.win_score = q) =
        (AiPlayer.possible_moves board player).filter (fun m => m.win_score = q)) ∧
      (AiPlayer.mk d).do_turn board player r =
        Except.ok (board.set
          (sorted_moves.getD
            ((⌊d * ((AiPlayer.possible_moves board player).length : ℚ)⌋).toNat)
            sorted_moves.headI).new_location
          player.get_board_space) := by
  refine ⟨(AiPlayer.possible_moves board player).mergeSort AiPlayer.moveLe,
    List.mergeSort_perm _ _, sorted_possible_moves_pairwise board player,
    fun q => mergeSort_filter_score _ q, ?_⟩
  have h := AiPlayer.do_turn_eq_of_incomplete (AiPlayer.mk d) board player r hprog
  rw [if_pos hmistake] at h
  rw [h]
  rw [List.getD_eq_getElem?_getD]
  simp only [List.length_mergeSort]
  cases hidx : ((AiPlayer.possible_moves board player).mergeSort
      AiPlayer.moveLe)[((⌊d * ((AiPlayer.possible_moves board player).length : ℚ)⌋).toNat)]? with
  | some m => rfl
  | none => rfl

/-- C5 witness: instantiated at difficulty `1/2`, draw `0`, on
`exampleBoardNearWin`, where a mistake is certain to occur. -/
theorem do_turn_mistake_selection_witness :
    (0 : ℚ) < 1 / 2 ∧ (1 / 2 : ℚ) ≤ 1 ∧ (0 : ℚ) ≤ 0 ∧ (0 : ℚ) < 1 ∧
    exampleBoardNearWin.game_outcome = GameOutcome.Incomplete ∧
    (AiPlayer.mk (1 / 2)).mistake_chance > 0 ∧
    ∃ sorted_moves : List PossibleMove,
      sorted_moves.Perm (AiPlayer.possible_moves exampleBoardNearWin ActivePlayer.PlayerX) ∧
      sorted_moves.Pairwise (fun a b => a.win_score ≤ b.win_score) ∧
      (∀ q : ℚ, sorted_moves.filter (fun m => m.win_score = q) =
        (AiPlayer.possible_moves exampleBoardNearWin ActivePlayer.PlayerX).filter
          (fun m => m.win_score = q)) ∧
      (AiPlayer.mk (1 / 2)).do_turn exampleBoardNearWin ActivePlayer.PlayerX 0 =
        Except.ok (exampleBoardNearWin.set
          (sorted_moves.getD
            ((⌊(1 / 2 : ℚ) *
              ((AiPlayer.possible_moves exampleBoardNearWin
                ActivePlayer.PlayerX).length : ℚ)⌋).toNat)
            sorted_moves.headI).new_location
          ActivePlayer.PlayerX.get_board_space) :=
  ⟨by norm_num, by norm_num, le_refl 0, by norm_num, by decide,
    by norm_num [AiPlayer.mistake_chance],
    do_turn_mistake_selection (1 / 2) 0 exampleBoardNearWin ActivePlayer.PlayerX
      (by norm_num) (by norm_num) (le_refl 0) (by norm_num) (by decide)
      (by norm_num [AiPlayer.mistake_chance])⟩

/-- sorting a nonempty candidate list yields a nonempty list. -/
theorem mergeSortMoveLe_ne_nil {l : List PossibleMove} (h : l ≠ []) :
    l.mergeSort AiPlayer.moveLe ≠ [] := by
  intro hnil
  apply h
  have hp := List.mergeSort_perm l AiPlayer.moveLe
  rw [hnil] at hp
  exact hp.symm.eq_nil

/-- whatever the draw and difficulty, the move `do_turn` plays on an
in-progress board is one of the generated candidates. -/
theorem AiPlayer.do_turn_plays_member (self : AiPlayer) (board : GameBoard)
    (player : ActivePlayer) (r : ℚ)
    (hprog : board.game_outcome = GameOutcome.Incomplete) :
    ∃ m ∈ AiPlayer.possible_moves board player,
      self.do_turn board player r =
        Except.ok (board.set m.new_location player.get_board_space) := by
  have h := AiPlayer.do_turn_eq_of_incomplete self board player r hprog
  have hsne : (AiPlayer.possible_moves board player).mergeSort AiPlayer.moveLe ≠ [] :=
    mergeSortMoveLe_ne_nil (AiPlayer.possible_moves_ne_nil hprog)
  by_cases hmis : self.mistake_chance > r
  · rw [if_pos hmis] at h
    cases hidx : ((AiPlayer.possible_moves board player).mergeSort
        AiPlayer.moveLe)[(⌊self.difficulty *
          ((((AiPlayer.possible_moves board player).mergeSort
            AiPlayer.moveLe)).length : ℚ)⌋).toNat]? with
    | some m =>
      rw [hidx] at h
      exact ⟨m, List.mem_mergeSort.mp (List.getElem?_mem hidx), h⟩
    | none =>
      rw [hidx] at h
      exact ⟨_, List.mem_mergeSort.mp (headI_mem hsne), h⟩
  · rw [if_neg hmis] at h
    exact ⟨_, List.mem_mergeSort.mp (getLastI_mem hsne), h⟩

/-- C10: for every in-progress board, active side, difficulty and random
draw, `do_turn` succeeds, and the board it returns agrees with the input
board at every position except the selected one, which was Empty in the
input and holds the active side's mark in the output.  The input board (a
value in this embedding, matching the `&GameBoard` borrow and the clone in
the source) is unchanged. -/
theorem do_turn_frame (self : AiPlayer) (board : GameBoard) (player : ActivePlayer)
    (r : ℚ) (hprog : board.game_outcome = GameOutcome.Incomplete) :
    ∃ loc : BoardSpaceLocation,
      board.space loc = BoardSpace.Empty ∧
      self.do_turn board player r =
        Except.ok (board.set loc player.get_board_space) ∧
      (board.set loc player.get_board_space).space loc = player.get_board_space ∧
      ∀ l : BoardSpaceLocation, l ≠ loc →
        (board.set loc player.get_board_space).space l = board.space l := by
  rcases AiPlayer.do_turn_plays_member self board player r hprog with ⟨m, hm, heq⟩
  exact ⟨m.new_location, AiPlayer.mem_possible_moves_empty hm, heq,
    GameBoard.space_set_self board m.new_location player.get_board_space,
    fun l hl => GameBoard.space_set_other board m.new_location l
      player.get_board_space hl⟩

/-- C10 witness: instantiated on `exampleBoardNearWin` at difficulty
`3/4` and draw `1/8`. -/
theorem do_turn_frame_witness :
    exampleBoardNearWin.game_outcome = GameOutcome.Incomplete ∧
    ∃ loc : BoardSpaceLocation,
      exampleBoardNearWin.space loc = BoardSpace.Empty ∧
      (AiPlayer.mk (3 / 4)).do_turn exampleBoardNearWin ActivePlayer.PlayerO (1 / 8) =
        Except.ok (exampleBoardNearWin.set loc ActivePlayer.PlayerO.get_board_space) ∧
      (exampleBoardNearWin.set loc ActivePlayer.PlayerO.get_board_space).space loc =
        ActivePlayer.PlayerO.get_board_space ∧
      ∀ l : BoardSpaceLocation, l ≠ loc →
        (exampleBoardNearWin.set loc ActivePlayer.PlayerO.get_board_space).space l =
          exampleBoardNearWin.space l :=
  ⟨by decide,
    do_turn_frame (AiPlayer.mk (3 / 4)) exampleBoardNearWin ActivePlayer.PlayerO (1 / 8)
      (by decide)⟩
